import Mathlib

/-!
Verification of the d3-tile library: a shallow embedding of its tile-set
computation (TileLayout) and of the coordinate-wrapping helper (tileWrap),
with theorems settling the documented properties.

The repository ships only the type-declaration file `src/index.d.ts`; the
computational bodies (`tile.js`, `wrap.js`) are not part of the sources, so
the definitions below are modelled from the specification's algorithm
(spec §4.2 steps 1-9, §4.3), which was written to describe that code.

Conventions: pixel quantities (extent, scale, translate, tile size, zoom
bias) are real numbers; tile coordinates are triples `(x, y, z)` with
`x y : ℤ` and zoom `z : ℕ`.
-/

/-- Modelled from the spec: the body of `wrap.js` is absent (only its
declaration is in the sources). Spec §4.3: given `(x, y, z)`, let `j = 2^z`;
return `(x - ⌊x/j⌋*j, y - ⌊y/j⌋*j, z)`, the floored-division reduction of
each axis modulo `j`. -/
def tileWrap (t : ℤ × ℤ × ℕ) : ℤ × ℤ × ℕ :=
  let j : ℤ := 2 ^ t.2.2
  (t.1 - t.1.fdiv j * j, t.2.1 - (t.2.1).fdiv j * j, t.2.2)

/-- Modelled from the spec: the mutable configuration state of a TileLayout
(spec §3, §4.1): viewport extent corners, tile size, zoom bias, and the two
independent clamp flags. The scale/translate accessors are resolved by the
caller at invocation time, so they are passed to `TileLayout.compute` as
already-resolved numbers rather than stored here. -/
structure TileLayout where
  x0 : ℝ
  y0 : ℝ
  x1 : ℝ
  y1 : ℝ
  tileSize : ℝ
  zoomDelta : ℝ
  clampX : Bool
  clampY : Bool

/-- Modelled from the spec: default layout (spec §6) — extent
`[[0,0],[960,500]]`, tileSize 256, zoomDelta 0, clampX/clampY true. -/
def tileDefault : TileLayout :=
  { x0 := 0, y0 := 0, x1 := 960, y1 := 500
    tileSize := 256, zoomDelta := 0, clampX := true, clampY := true }

/-- Modelled from the spec: the `extent` setter (spec §6) — sets both corner
points of the viewport rectangle. -/
def setExtent (l : TileLayout) (e : (ℝ × ℝ) × (ℝ × ℝ)) : TileLayout :=
  { l with x0 := e.1.1, y0 := e.1.2, x1 := e.2.1, y1 := e.2.2 }

/-- Modelled from the spec: the `extent` getter. -/
def getExtent (l : TileLayout) : (ℝ × ℝ) × (ℝ × ℝ) :=
  ((l.x0, l.y0), (l.x1, l.y1))

/-- Modelled from the spec: the `size` setter (spec §6) is implemented as
`extent([[0,0],[w,h]])`. -/
def setSize (l : TileLayout) (s : ℝ × ℝ) : TileLayout :=
  setExtent l ((0, 0), (s.1, s.2))

/-- Modelled from the spec: the `size` getter returns the derived
`(x1 - x0, y1 - y0)`. -/
def getSize (l : TileLayout) : ℝ × ℝ :=
  (l.x1 - l.x0, l.y1 - l.y0)

/-- Modelled from the spec: `clamp(b)` sets `clampX` and `clampY` together
(spec §4.1). -/
def setClamp (l : TileLayout) (b : Bool) : TileLayout :=
  { l with clampX := b, clampY := b }

/-- Modelled from the spec: `clampX(b)` setter. -/
def setClampX (l : TileLayout) (b : Bool) : TileLayout :=
  { l with clampX := b }

/-- Modelled from the spec: `clampY(b)` setter. -/
def setClampY (l : TileLayout) (b : Bool) : TileLayout :=
  { l with clampY := b }

/-- Modelled from the spec: reading `clamp` returns true only if both
`clampX` and `clampY` are true (spec §4.1). -/
def getClamp (l : TileLayout) : Bool :=
  l.clampX && l.clampY

/-- Modelled from the spec: zoom selection (spec §4.2 steps 2-3) — continuous
zoom `z0 = log2(scale / tileSize)`, then discrete zoom
`z = round(z0 + zoomDelta)` clamped to a minimum of 0. -/
noncomputable def zoomOf (scale tileSize zoomDelta : ℝ) : ℕ :=
  (max (round (Real.logb 2 (scale / tileSize) + zoomDelta)) 0).toNat

/-- The integers from `lo` to `hi` inclusive (empty when `hi < lo`). -/
def intRange (lo hi : ℤ) : List ℤ :=
  (List.range (hi + 1 - lo).toNat).map (fun i : ℕ => lo + (i : ℤ))

theorem mem_intRange {lo hi x : ℤ} : x ∈ intRange lo hi ↔ lo ≤ x ∧ x ≤ hi := by
  constructor
  · intro hx
    obtain ⟨i, hmem, rfl⟩ := List.mem_map.mp hx
    have hlt : i < (hi + 1 - lo).toNat := List.mem_range.mp hmem
    omega
  · rintro ⟨h1, h2⟩
    refine List.mem_map.mpr ⟨(x - lo).toNat, List.mem_range.mpr ?_, ?_⟩ <;> omega

/-- C8: `clamp(b)` sets both `clampX` and `clampY` to `b`; the getter
`clamp()` is true iff both flags are true; and after setting exactly one of
`clampX`/`clampY` to false the getter returns false. -/
theorem clamp_sets_and_reads_both (l : TileLayout) (b : Bool) :
    (setClamp l b).clampX = b ∧ (setClamp l b).clampY = b ∧
    (getClamp l = true ↔ (l.clampX = true ∧ l.clampY = true)) ∧
    getClamp (setClampX l false) = false ∧
    getClamp (setClampY l false) = false := by
  refine ⟨rfl, rfl, ?_, ?_, ?_⟩
  · simp [getClamp]
  · simp [getClamp, setClampX]
  · simp [getClamp, setClampY]

/-- C9: `size([w,h])` is the same as `extent([[0,0],[w,h]])`; after setting
any extent `[[a,b],[c,d]]` the size getter returns `(c - a, d - b)`; on a
fresh layout the size is `(960, 500)`. -/
theorem size_is_extent_shorthand (l : TileLayout) (w h a b c d : ℝ) :
    setSize l (w, h) = setExtent l ((0, 0), (w, h)) ∧
    getSize (setExtent l ((a, b), (c, d))) = (c - a, d - b) ∧
    getSize l = (l.x1 - l.x0, l.y1 - l.y0) ∧
    getSize tileDefault = (960, 500) := by
  refine ⟨rfl, rfl, rfl, ?_⟩
  simp [getSize, tileDefault]

/-- C10: at zoom 0 the wrap function collapses every coordinate to the root
tile: `tileWrap (x, y, 0) = (0, 0, 0)` for all integers `x`, `y`. -/
theorem tileWrap_zoom_zero (x y : ℤ) : tileWrap (x, y, 0) = (0, 0, 0) := by
  simp [tileWrap]

theorem floor_intCast_div_pow {a : ℤ} {z : ℕ} :
    ⌊(a : ℝ) / 2 ^ z⌋ = a.fdiv (2 ^ z) := by
  have h1 : ((a : ℝ) / 2 ^ z) = (((a : ℚ) / ((2 ^ z : ℕ) : ℚ) : ℚ) : ℝ) := by
    push_cast
    ring
  rw [h1, Rat.floor_cast, Rat.floor_intCast_div_natCast,
    Int.fdiv_eq_ediv _ (by positivity)]
  norm_num

/-- C4: `tileWrap (x, y, z)` equals `(x - ⌊x/j⌋*j, y - ⌊y/j⌋*j, z)` with
`j = 2^z` and `⌊·⌋` the floor of the real quotient (floored, not truncated,
division), so negative inputs map to the positive residue; in particular
`tileWrap (-1, 0, 1) = (1, 0, 1)` and `tileWrap (-1, 0, 2) = (3, 0, 2)`, and
`z` passes through unchanged. -/
theorem tileWrap_floored_division :
    (∀ (x y : ℤ) (z : ℕ),
      tileWrap (x, y, z) =
        (x - ⌊(x : ℝ) / 2 ^ z⌋ * 2 ^ z, y - ⌊(y : ℝ) / 2 ^ z⌋ * 2 ^ z, z)) ∧
    tileWrap (-1, 0, 1) = (1, 0, 1) ∧ tileWrap (-1, 0, 2) = (3, 0, 2) := by
  refine ⟨fun x y z => ?_, by decide, by decide⟩
  simp [tileWrap, floor_intCast_div_pow]

/-- C5: `tileWrap` is the identity on each in-range axis (for
`0 ≤ x < 2^z` the x-component is returned unchanged, symmetrically for y),
and it is periodic with period `2^z` on each axis. -/
theorem tileWrap_idempotent_periodic :
    (∀ (x y : ℤ) (z : ℕ), 0 ≤ x → x < 2 ^ z → (tileWrap (x, y, z)).1 = x) ∧
    (∀ (x y : ℤ) (z : ℕ), 0 ≤ y → y < 2 ^ z → (tileWrap (x, y, z)).2.1 = y) ∧
    (∀ (x y : ℤ) (z : ℕ), tileWrap (x, y, z) = tileWrap (x + 2 ^ z, y, z)) := by
  have hdiv0 : ∀ (a : ℤ) (z : ℕ), 0 ≤ a → a < 2 ^ z → a.fdiv (2 ^ z) = 0 := by
    intro a z h1 h2
    rw [Int.fdiv_eq_ediv _ (by positivity)]
    exact Int.ediv_eq_zero_of_lt h1 h2
  have hper : ∀ (a : ℤ) (z : ℕ),
      (a + 2 ^ z) - (a + 2 ^ z).fdiv (2 ^ z) * 2 ^ z = a - a.fdiv (2 ^ z) * 2 ^ z := by
    intro a z
    have hpos : (0 : ℤ) ≤ 2 ^ z := by positivity
    have hne : (2 : ℤ) ^ z ≠ 0 := by positivity
    rw [Int.fdiv_eq_ediv _ hpos, Int.fdiv_eq_ediv _ hpos]
    have : (a + 2 ^ z) / 2 ^ z = a / 2 ^ z + 1 := by
      have := Int.add_mul_ediv_right a 1 hne
      simpa using this
    rw [this]
    ring
  refine ⟨fun x y z h1 h2 => ?_, fun x y z h1 h2 => ?_, fun x y z => ?_⟩
  · simp [tileWrap, hdiv0 x z h1 h2]
  · simp [tileWrap, hdiv0 y z h1 h2]
  · exact congrArg (fun a => (a, y - y.fdiv (2 ^ z) * 2 ^ z, z)) (hper x z).symm

theorem tileWrap_idempotent_periodic_witness :
    ((0 : ℤ) ≤ 1 ∧ (1 : ℤ) < 2 ^ 1 ∧ (tileWrap (1, 0, 1)).1 = 1) ∧
    ((0 : ℤ) ≤ 0 ∧ (0 : ℤ) < 2 ^ 2 ∧ (tileWrap (3, 0, 2)).2.1 = 0) :=
  ⟨⟨by decide, by decide, tileWrap_idempotent_periodic.1 1 0 1 (by decide) (by decide)⟩,
   ⟨by decide, by decide, tileWrap_idempotent_periodic.2.1 3 0 2 (by decide) (by decide)⟩⟩

/-- Modelled from the spec: the sort key used to order the output (spec §4.2
step 8): squared Euclidean distance of the tile's cell from the grid's center
cell, with ties broken by row-major order (increasing row, then column). The
parameter `c = (xlo + xhi, ylo + yhi)` is twice the grid center, so
`2*x - c.1` is twice the signed offset of column `x` from the center column. -/
def tileKey (c : ℤ × ℤ) (t : ℤ × ℤ × ℕ) : ℤ ×ₗ (ℤ ×ₗ ℤ) :=
  toLex ((2 * t.1 - c.1) ^ 2 + (2 * t.2.1 - c.2) ^ 2, toLex (t.2.1, t.1))

/-- Modelled from the spec: the output ordering — ascending distance from the
grid's center cell, ties broken row-major. -/
def tileOrder (c : ℤ × ℤ) (a b : ℤ × ℤ × ℕ) : Prop :=
  tileKey c a ≤ tileKey c b

instance (c : ℤ × ℤ) : DecidableRel (tileOrder c) :=
  fun a b => inferInstanceAs (Decidable (tileKey c a ≤ tileKey c b))

instance (c : ℤ × ℤ) : IsTotal (ℤ × ℤ × ℕ) (tileOrder c) :=
  ⟨fun a b => le_total (tileKey c a) (tileKey c b)⟩

instance (c : ℤ × ℤ) : IsTrans (ℤ × ℤ × ℕ) (tileOrder c) :=
  ⟨fun _ _ _ h1 h2 => le_trans h1 h2⟩

/-- Modelled from the spec: the X tile-index range (spec §4.2 steps 4-7).
At zoom `z` the per-tile pixel size is `k = scale / 2^z`; map both extent
corners through `px ↦ (px - tx) / k - 1/2`, take the inclusive integer range
`[⌊·⌋ .. ⌈·⌉ - 1]`, and, when `clampX` is set, intersect it with
`[0, 2^z - 1]`. -/
noncomputable def tileRangeX (l : TileLayout) (z : ℕ) (scale tx : ℝ) : ℤ × ℤ :=
  let k := scale / 2 ^ z
  let lo := ⌊(l.x0 - tx) / k - 1 / 2⌋
  let hi := ⌈(l.x1 - tx) / k - 1 / 2⌉ - 1
  (if l.clampX then max 0 lo else lo, if l.clampX then min (2 ^ z - 1) hi else hi)

/-- Modelled from the spec: the Y tile-index range, symmetric to
`tileRangeX` with the `clampY` flag. -/
noncomputable def tileRangeY (l : TileLayout) (z : ℕ) (scale ty : ℝ) : ℤ × ℤ :=
  let k := scale / 2 ^ z
  let lo := ⌊(l.y0 - ty) / k - 1 / 2⌋
  let hi := ⌈(l.y1 - ty) / k - 1 / 2⌉ - 1
  (if l.clampY then max 0 lo else lo, if l.clampY then min (2 ^ z - 1) hi else hi)

/-- The tile-set result: the ordered tile coordinate list plus the attached
`scale` and `translate` metadata (the `Tiles` type of the d.ts file). -/
structure Tiles where
  tiles : List (ℤ × ℤ × ℕ)
  scale : ℝ
  translate : ℝ × ℝ

/-- Modelled from the spec: the computation entry point (spec §4.2, the body
of `tile.js` being absent from the sources). The caller-resolved scale and
translate are taken as arguments; the zoom is selected by `zoomOf`, the
clamped index ranges by `tileRangeX`/`tileRangeY`; the Cartesian product of
the ranges is enumerated and ordered center-first (step 8); the per-tile
pixel scale `scale / 2^z` and the translate `(tx, ty)` are attached
unchanged (step 9). -/
noncomputable def TileLayout.compute (l : TileLayout) (scale tx ty : ℝ) : Tiles :=
  let z := zoomOf scale l.tileSize l.zoomDelta
  let xr := tileRangeX l z scale tx
  let yr := tileRangeY l z scale ty
  let cells := (intRange yr.1 yr.2).flatMap
    (fun y => (intRange xr.1 xr.2).map (fun x => (x, y, z)))
  { tiles := List.insertionSort (tileOrder (xr.1 + xr.2, yr.1 + yr.2)) cells
    scale := scale / 2 ^ z
    translate := (tx, ty) }

/-- The downstream positioning function documented in the d.ts file: the
top-left pixel of tile `t` is `((x + translate.x) * scale, (y + translate.y)
* scale)` in terms of the attached result metadata. -/
noncomputable def position (t : ℤ × ℤ × ℕ) (ts : Tiles) : ℝ × ℝ :=
  ((t.1 + ts.translate.1) * ts.scale, (t.2.1 + ts.translate.2) * ts.scale)

theorem mem_compute_tiles {l : TileLayout} {s tx ty : ℝ} {t : ℤ × ℤ × ℕ} :
    t ∈ (l.compute s tx ty).tiles ↔
      ((tileRangeX l (zoomOf s l.tileSize l.zoomDelta) s tx).1 ≤ t.1 ∧
        t.1 ≤ (tileRangeX l (zoomOf s l.tileSize l.zoomDelta) s tx).2) ∧
      ((tileRangeY l (zoomOf s l.tileSize l.zoomDelta) s ty).1 ≤ t.2.1 ∧
        t.2.1 ≤ (tileRangeY l (zoomOf s l.tileSize l.zoomDelta) s ty).2) ∧
      t.2.2 = zoomOf s l.tileSize l.zoomDelta := by
  simp only [TileLayout.compute]
  rw [(List.perm_insertionSort _ _).mem_iff]
  simp only [List.mem_flatMap, List.mem_map, mem_intRange]
  constructor
  · rintro ⟨y, ⟨hy1, hy2⟩, x, ⟨hx1, hx2⟩, rfl⟩
    exact ⟨⟨hx1, hx2⟩, ⟨hy1, hy2⟩, rfl⟩
  · rintro ⟨⟨hx1, hx2⟩, ⟨hy1, hy2⟩, hz⟩
    refine ⟨t.2.1, ⟨hy1, hy2⟩, t.1, ⟨hx1, hx2⟩, ?_⟩
    obtain ⟨a, b, c⟩ := t
    cases hz
    rfl

theorem ceil_eq_neg_floor_neg (a : ℝ) : ⌈a⌉ = -⌊-a⌋ := by
  rw [Int.floor_neg, neg_neg]

theorem zoomOf_default : zoomOf 256 tileDefault.tileSize tileDefault.zoomDelta = 0 := by
  show zoomOf 256 256 0 = 0
  have h : (256 : ℝ) / 256 = 1 := by norm_num
  unfold zoomOf
  rw [h, Real.logb_one]
  norm_num

theorem tileRangeX_default : tileRangeX tileDefault 0 256 0 = (0, 0) := by
  simp only [tileRangeX, tileDefault, ceil_eq_neg_floor_neg]
  norm_num

theorem tileRangeY_default : tileRangeY tileDefault 0 256 0 = (0, 0) := by
  simp only [tileRangeY, tileDefault, ceil_eq_neg_floor_neg]
  norm_num

theorem compute_default_tiles :
    (tileDefault.compute 256 0 0).tiles = [(0, 0, 0)] := by
  simp only [TileLayout.compute, zoomOf_default, tileRangeX_default, tileRangeY_default]
  rfl

theorem tileRangeX_clamped_bounds {l : TileLayout} (h : l.clampX = true)
    (z : ℕ) (s tx : ℝ) :
    0 ≤ (tileRangeX l z s tx).1 ∧ (tileRangeX l z s tx).2 ≤ 2 ^ z - 1 := by
  simp only [tileRangeX, h, if_true]
  exact ⟨le_max_left _ _, min_le_left _ _⟩

theorem tileRangeY_clamped_bounds {l : TileLayout} (h : l.clampY = true)
    (z : ℕ) (s ty : ℝ) :
    0 ≤ (tileRangeY l z s ty).1 ∧ (tileRangeY l z s ty).2 ≤ 2 ^ z - 1 := by
  simp only [tileRangeY, h, if_true]
  exact ⟨le_max_left _ _, min_le_left _ _⟩

/-- C1: with clamping enabled on both axes, every tile `(x, y, z)` returned
by an invocation satisfies `0 ≤ x < 2^z` and `0 ≤ y < 2^z`. -/
theorem clamped_tiles_in_world_bounds (l : TileLayout) (s tx ty : ℝ)
    (t : ℤ × ℤ × ℕ) (hcx : l.clampX = true) (hcy : l.clampY = true)
    (ht : t ∈ (l.compute s tx ty).tiles) :
    0 ≤ t.1 ∧ t.1 < 2 ^ t.2.2 ∧ 0 ≤ t.2.1 ∧ t.2.1 < 2 ^ t.2.2 := by
  obtain ⟨⟨hx1, hx2⟩, ⟨hy1, hy2⟩, hz⟩ := mem_compute_tiles.mp ht
  obtain ⟨hxl, hxr⟩ := tileRangeX_clamped_bounds hcx
    (zoomOf s l.tileSize l.zoomDelta) s tx
  obtain ⟨hyl, hyr⟩ := tileRangeY_clamped_bounds hcy
    (zoomOf s l.tileSize l.zoomDelta) s ty
  rw [hz]
  refine ⟨le_trans hxl hx1, ?_, le_trans hyl hy1, ?_⟩ <;> omega

theorem clamped_tiles_in_world_bounds_witness :
    tileDefault.clampX = true ∧ tileDefault.clampY = true ∧
    (0, 0, 0) ∈ (tileDefault.compute 256 0 0).tiles ∧
    (0 : ℤ) ≤ (0 : ℤ) ∧ (0 : ℤ) < 2 ^ (0 : ℕ) := by
  have hmem : ((0 : ℤ), (0 : ℤ), (0 : ℕ)) ∈ (tileDefault.compute 256 0 0).tiles := by
    rw [compute_default_tiles]
    exact List.mem_singleton.mpr rfl
  exact ⟨rfl, rfl, hmem,
    (clamped_tiles_in_world_bounds tileDefault 256 0 0 (0, 0, 0) rfl rfl hmem).1,
    (clamped_tiles_in_world_bounds tileDefault 256 0 0 (0, 0, 0) rfl rfl hmem).2.1⟩

/-- C2: for every invocation with a positive resolved scale, each returned
tile's zoom level `z` equals `round(log2(scale / tileSize) + zoomDelta)`
clamped below by 0 (the clamp applied to the rounded value). -/
theorem tile_zoom_is_rounded_clamped_log (l : TileLayout) (s tx ty : ℝ)
    (t : ℤ × ℤ × ℕ) (_hs : 0 < s) (ht : t ∈ (l.compute s tx ty).tiles) :
    (t.2.2 : ℤ) = max (round (Real.logb 2 (s / l.tileSize) + l.zoomDelta)) 0 := by
  rw [(mem_compute_tiles.mp ht).2.2]
  exact Int.toNat_of_nonneg (le_max_right _ 0)

theorem tile_zoom_is_rounded_clamped_log_witness :
    (0 : ℝ) < 256 ∧ (0, 0, 0) ∈ (tileDefault.compute 256 0 0).tiles ∧
    (((0 : ℕ) : ℤ) =
      max (round (Real.logb 2 (256 / tileDefault.tileSize) + tileDefault.zoomDelta)) 0) := by
  have hmem : ((0 : ℤ), (0 : ℤ), (0 : ℕ)) ∈ (tileDefault.compute 256 0 0).tiles := by
    rw [compute_default_tiles]
    exact List.mem_singleton.mpr rfl
  exact ⟨by norm_num, hmem,
    tile_zoom_is_rounded_clamped_log tileDefault 256 0 0 (0, 0, 0) (by norm_num) hmem⟩

/-- C3: every result carries `scale = scale / 2^z` and `translate = (tx, ty)`
unchanged, and for every returned tile `(x, y, z)` the top-left pixel position
computed from the attached metadata is
`((x + tx) * scale / 2^z, (y + ty) * scale / 2^z)`. -/
theorem result_metadata_positions_tiles (l : TileLayout) (s tx ty : ℝ)
    (t : ℤ × ℤ × ℕ) (ht : t ∈ (l.compute s tx ty).tiles) :
    (l.compute s tx ty).scale = s / 2 ^ t.2.2 ∧
    (l.compute s tx ty).translate = (tx, ty) ∧
    position t (l.compute s tx ty) =
      ((t.1 + tx) * (s / 2 ^ t.2.2), (t.2.1 + ty) * (s / 2 ^ t.2.2)) := by
  have hz := (mem_compute_tiles.mp ht).2.2
  have h1 : (l.compute s tx ty).scale = s / 2 ^ (zoomOf s l.tileSize l.zoomDelta) := rfl
  have h2 : (l.compute s tx ty).translate = (tx, ty) := rfl
  rw [hz]
  exact ⟨h1, h2, by rw [position, h1, h2]⟩

theorem result_metadata_positions_tiles_witness :
    (0, 0, 0) ∈ (tileDefault.compute 256 0 0).tiles ∧
    (tileDefault.compute 256 0 0).translate = (0, 0) ∧
    position (0, 0, 0) (tileDefault.compute 256 0 0) =
      ((((0 : ℤ) : ℝ) + 0) * (256 / 2 ^ (0 : ℕ)),
       (((0 : ℤ) : ℝ) + 0) * (256 / 2 ^ (0 : ℕ))) := by
  have hmem : ((0 : ℤ), (0 : ℤ), (0 : ℕ)) ∈ (tileDefault.compute 256 0 0).tiles := by
    rw [compute_default_tiles]
    exact List.mem_singleton.mpr rfl
  exact ⟨hmem,
    (result_metadata_positions_tiles tileDefault 256 0 0 (0, 0, 0) hmem).2.1,
    (result_metadata_positions_tiles tileDefault 256 0 0 (0, 0, 0) hmem).2.2⟩

/-- C6: the returned tile list is sorted by ascending squared Euclidean
distance from the tile grid's center cell, with ties broken by row-major
order (`tileOrder` at twice the grid-center coordinates). -/
theorem tiles_ordered_center_first (l : TileLayout) (s tx ty : ℝ) :
    List.Sorted
      (tileOrder
        ((tileRangeX l (zoomOf s l.tileSize l.zoomDelta) s tx).1 +
            (tileRangeX l (zoomOf s l.tileSize l.zoomDelta) s tx).2,
          (tileRangeY l (zoomOf s l.tileSize l.zoomDelta) s ty).1 +
            (tileRangeY l (zoomOf s l.tileSize l.zoomDelta) s ty).2))
      (l.compute s tx ty).tiles := by
  simp only [TileLayout.compute]
  exact List.sorted_insertionSort _ _

/-- A layout whose viewport extent is the zero-area rectangle
`[[0,0],[0,0]]`. -/
def tileZero : TileLayout := setExtent tileDefault ((0, 0), (0, 0))

theorem zoomOf_tileZero : zoomOf 256 tileZero.tileSize tileZero.zoomDelta = 0 := by
  show zoomOf 256 256 0 = 0
  have h : (256 : ℝ) / 256 = 1 := by norm_num
  unfold zoomOf
  rw [h, Real.logb_one]
  norm_num

theorem tileRangeX_tileZero : tileRangeX tileZero 0 256 (-192) = (0, 0) := by
  simp only [tileRangeX, tileZero, setExtent, tileDefault, ceil_eq_neg_floor_neg]
  norm_num

theorem tileRangeY_tileZero : tileRangeY tileZero 0 256 (-192) = (0, 0) := by
  simp only [tileRangeY, tileZero, setExtent, tileDefault, ceil_eq_neg_floor_neg]
  norm_num

theorem compute_tileZero_tiles :
    (tileZero.compute 256 (-192) (-192)).tiles = [(0, 0, 0)] := by
  simp only [TileLayout.compute, zoomOf_tileZero, tileRangeX_tileZero, tileRangeY_tileZero]
  rfl

/-- C7 counterexample: a layout with the zero-area extent `[[0,0],[0,0]]`
invoked at scale 256 and translate `(-192, -192)` returns the non-empty tile
collection `[(0, 0, 0)]`, so a degenerate extent does not yield an empty
result for every scale and translate. -/
theorem zero_extent_invocation_returns_a_tile :
    (tileZero.compute 256 (-192) (-192)).tiles = [(0, 0, 0)] :=
  compute_tileZero_tiles

theorem length_intRange (lo hi : ℤ) :
    (intRange lo hi).length = (hi + 1 - lo).toNat := by
  simp [intRange]

theorem length_grid {α : Type} (xs ys : List ℤ) (f : ℤ → ℤ → α) :
    ((ys.flatMap fun y => xs.map fun x => f x y)).length = ys.length * xs.length := by
  induction ys with
  | nil => simp
  | cons y ys ih =>
    simp only [List.flatMap_cons, List.length_append, List.length_map, ih,
      List.length_cons]
    ring

theorem compute_tiles_length (l : TileLayout) (s tx ty : ℝ) :
    (l.compute s tx ty).tiles.length =
      (intRange (tileRangeY l (zoomOf s l.tileSize l.zoomDelta) s ty).1
          (tileRangeY l (zoomOf s l.tileSize l.zoomDelta) s ty).2).length *
        (intRange (tileRangeX l (zoomOf s l.tileSize l.zoomDelta) s tx).1
          (tileRangeX l (zoomOf s l.tileSize l.zoomDelta) s tx).2).length := by
  simp only [TileLayout.compute]
  rw [(List.perm_insertionSort _ _).length_eq]
  exact length_grid _ _ _

theorem tileRangeX_degenerate {l : TileLayout} (hx : l.x1 = l.x0) (z : ℕ)
    (s tx : ℝ) : (tileRangeX l z s tx).2 ≤ (tileRangeX l z s tx).1 := by
  simp only [tileRangeX, hx]
  have h := Int.ceil_le_floor_add_one ((l.x0 - tx) / (s / 2 ^ z) - 1 / 2)
  cases hc : l.clampX <;> simp only [if_true, if_false, Bool.false_eq_true] <;> omega

theorem tileRangeY_degenerate {l : TileLayout} (hy : l.y1 = l.y0) (z : ℕ)
    (s ty : ℝ) : (tileRangeY l z s ty).2 ≤ (tileRangeY l z s ty).1 := by
  simp only [tileRangeY, hy]
  have h := Int.ceil_le_floor_add_one ((l.y0 - ty) / (s / 2 ^ z) - 1 / 2)
  cases hc : l.clampY <;> simp only [if_true, if_false, Bool.false_eq_true] <;> omega

/-- C7 amended: a layout with a degenerate (zero-area) extent, `x1 = x0` and
`y1 = y0`, returns at most one tile for every scale and translate — the
single tile whose cell contains the degenerate point, or none — rather than
always an empty collection. -/
theorem degenerate_extent_at_most_one_tile (l : TileLayout) (s tx ty : ℝ)
    (hx : l.x1 = l.x0) (hy : l.y1 = l.y0) :
    (l.compute s tx ty).tiles.length ≤ 1 := by
  rw [compute_tiles_length, length_intRange, length_intRange]
  have h1 := tileRangeX_degenerate hx (zoomOf s l.tileSize l.zoomDelta) s tx
  have h2 := tileRangeY_degenerate hy (zoomOf s l.tileSize l.zoomDelta) s ty
  have hx1 : ((tileRangeX l (zoomOf s l.tileSize l.zoomDelta) s tx).2 + 1 -
      (tileRangeX l (zoomOf s l.tileSize l.zoomDelta) s tx).1).toNat ≤ 1 := by omega
  have hy1 : ((tileRangeY l (zoomOf s l.tileSize l.zoomDelta) s ty).2 + 1 -
      (tileRangeY l (zoomOf s l.tileSize l.zoomDelta) s ty).1).toNat ≤ 1 := by omega
  simpa using Nat.mul_le_mul hy1 hx1

theorem degenerate_extent_at_most_one_tile_witness :
    tileZero.x1 = tileZero.x0 ∧ tileZero.y1 = tileZero.y0 ∧
    (tileZero.compute 256 (-192) (-192)).tiles.length ≤ 1 :=
  ⟨rfl, rfl, degenerate_extent_at_most_one_tile tileZero 256 (-192) (-192) rfl rfl⟩
